import Mathlib

set_option maxRecDepth 200000

/-!
Verification of the job-posting content-extraction pipeline of the
Application Tracker repository (`src/api/scrape-advanced.ts`).

The JavaScript source works by chains of `String.replace` calls with fixed
regular expressions.  We embed each such call as an executable function on
`List Char` that reproduces the regex's global left-to-right replacement
semantics, and the HTTP handler as a function from a fetch outcome to a
response value.  All functions are total and computable so that theorems can
be settled by `decide` on concrete inputs.
-/

namespace Scrape

/-- JS `\s` / `String.trim` whitespace (the characters relevant here). -/
def isWsChar (c : Char) : Bool :=
  c = ' ' || c = '\t' || c = '\n' || c = '\r' || c = '\x0b' || c = '\x0c' ||
  c = '\u00A0' || c = '\uFEFF' || c = '\u2028' || c = '\u2029'

/-- JS `\w` (the word characters used by the `\b` boundary assertion). -/
def isWordChar (c : Char) : Bool :=
  ('a' ≤ c && c ≤ 'z') || ('A' ≤ c && c ≤ 'Z') || ('0' ≤ c && c ≤ '9') || c = '_'

/-- ASCII lower-casing, used for the `i` regex flag and `toLowerCase()`. -/
def lowerCh (c : Char) : Char := Char.toLower c

def lowerL (l : List Char) : List Char := l.map lowerCh

/-- Split `l` at the first occurrence of `c`:
`breakAt c l = some (b, a)` iff `l = b ++ c :: a` with `c ∉ b`. -/
def breakAt (c : Char) : List Char → Option (List Char × List Char)
  | [] => none
  | x :: xs =>
    if x = c then some ([], xs)
    else (breakAt c xs).map (fun p => (x :: p.1, p.2))

/-- Case-insensitive prefix test (for regexes carrying the `i` flag). -/
def isPrefixCI : List Char → List Char → Bool
  | [], _ => true
  | _ :: _, [] => false
  | p :: ps, x :: xs => lowerCh p = lowerCh x && isPrefixCI ps xs

/-- Drop everything up to and including the first case-insensitive
occurrence of `pat`; `none` when `pat` does not occur. -/
def dropAfterCI (pat : List Char) : List Char → Option (List Char)
  | [] => if pat.isEmpty then some [] else none
  | x :: xs =>
    if isPrefixCI pat (x :: xs) then some ((x :: xs).drop pat.length)
    else dropAfterCI pat xs

/-- Case-insensitive substring test (`String.prototype.includes` after
`toLowerCase`, and regex `i`-flag containment). -/
def containsCI (pat l : List Char) : Bool := (dropAfterCI pat l).isSome

/-- Case-sensitive substring test (`String.prototype.includes`). -/
def isSubstr (pat : List Char) : List Char → Bool
  | [] => pat.isEmpty
  | x :: xs => pat.isPrefixOf (x :: xs) || isSubstr pat xs

/-- `String.prototype.replace` with a plain string pattern: replaces the
first occurrence only. -/
def replaceFirstL (pat repl : List Char) : List Char → List Char
  | [] => []
  | x :: xs =>
    if pat.isPrefixOf (x :: xs) then repl ++ (x :: xs).drop pat.length
    else x :: replaceFirstL pat repl xs

/-!  ### The global-replace scanning engine

`String.replace` with a `g`-flagged regex scans the subject left to right;
at each position it attempts a match, emits the replacement and resumes
after the match on success, and moves one character forward on failure.
`scanRepl` reproduces this; the matcher receives the current suffix and
returns the replacement together with the remainder after the matched text.
The fuel argument is always instantiated with the subject's length, which
suffices because every matcher consumes at least one character. -/

def scanRepl (m : List Char → Option (List Char × List Char)) :
    Nat → List Char → List Char
  | 0, s => s
  | _ + 1, [] => []
  | fuel + 1, c :: rest =>
    match m (c :: rest) with
    | some (r, after) => r ++ scanRepl m fuel after
    | none => c :: scanRepl m fuel rest

/-- Like `scanRepl` but the matcher also sees the character preceding the
current position in the *original* subject (needed for `\b`), and reports
the last character it consumed. -/
def scanReplB
    (m : Option Char → List Char → Option (List Char × Char × List Char)) :
    Nat → Option Char → List Char → List Char
  | 0, _, s => s
  | _ + 1, _, [] => []
  | fuel + 1, prev, c :: rest =>
    match m prev (c :: rest) with
    | some (r, last, after) => r ++ scanReplB m fuel (some last) after
    | none => c :: scanReplB m fuel (some c) rest

/-!  ### Matchers for the individual regexes of `extractTextFromHtml` -/

/-- Matcher for a literal, case-sensitive pattern (the named-entity
replacements such as `/&nbsp;/g`). -/
def litM (pat repl : List Char) (l : List Char) :
    Option (List Char × List Char) :=
  if pat.isPrefixOf l then some (repl, l.drop pat.length) else none

/-- Matcher for `/<script\b[^<]*(?:(?!<\/script>)<[^<]*)*<\/script>/gi`:
a case-insensitive `<script` with a word boundary after it, removed through
the first following `</script>`; no match when no closing tag follows. -/
def scriptM (openPat closePat : List Char) (l : List Char) :
    Option (List Char × List Char) :=
  match l with
  | [] => none
  | c :: rest =>
    if c = '<' then
      if isPrefixCI openPat rest then
        let afterOpen := rest.drop openPat.length
        match afterOpen with
        | [] => none
        | c2 :: _ =>
          if isWordChar c2 then none
          else
            match dropAfterCI closePat afterOpen with
            | some rem => some ([], rem)
            | none => none
      else none
    else none

/-- Matcher for `/<!--[\s\S]*?-->/g`: an HTML comment, removed through the
first following `-->`. -/
def commentM (l : List Char) : Option (List Char × List Char) :=
  if "<!--".data.isPrefixOf l then
    match dropAfterCI "-->".data (l.drop 4) with
    | some rem => some ([], rem)
    | none => none
  else none

/-- Matcher for `/<[^>]*>/g` (replace each tag by a space): from a `<` the
match extends to the first following `>`; a `<` with no later `>` does not
match. -/
def tagM (l : List Char) : Option (List Char × List Char) :=
  match l with
  | [] => none
  | c :: rest =>
    if c = '<' then
      match breakAt '>' rest with
      | some (_, after) => some ([' '], after)
      | none => none
    else none

def isHexDigit (c : Char) : Bool :=
  ('0' ≤ c && c ≤ '9') || ('a' ≤ c && c ≤ 'f') || ('A' ≤ c && c ≤ 'F')

def isDecDigit (c : Char) : Bool := '0' ≤ c && c ≤ '9'

def hexVal (c : Char) : Nat :=
  if '0' ≤ c && c ≤ '9' then c.toNat - '0'.toNat
  else if 'a' ≤ c && c ≤ 'f' then c.toNat - 'a'.toNat + 10
  else if 'A' ≤ c && c ≤ 'F' then c.toNat - 'A'.toNat + 10
  else 0

def digitsToNat (base : Nat) (f : Char → Nat) (ds : List Char) : Nat :=
  ds.foldl (fun acc c => acc * base + f c) 0

/-- Matcher for `/&#x([0-9A-Fa-f]+);/g` with the
`String.fromCharCode(parseInt(hex, 16))` replacement (code unit mod 2^16). -/
def hexEntM (l : List Char) : Option (List Char × List Char) :=
  if "&#x".data.isPrefixOf l then
    let rest := l.drop 3
    let ds := rest.takeWhile isHexDigit
    if ds.isEmpty then none
    else
      match rest.drop ds.length with
      | ';' :: after =>
        some ([Char.ofNat (digitsToNat 16 hexVal ds % 65536)], after)
      | _ => none
  else none

/-- Matcher for `/&#(\d+);/g` with the
`String.fromCharCode(parseInt(dec, 10))` replacement. -/
def decEntM (l : List Char) : Option (List Char × List Char) :=
  if "&#".data.isPrefixOf l then
    let rest := l.drop 2
    let ds := rest.takeWhile isDecDigit
    if ds.isEmpty then none
    else
      match rest.drop ds.length with
      | ';' :: after =>
        some ([Char.ofNat (digitsToNat 10 hexVal ds % 65536)], after)
      | _ => none
  else none

/-- Matcher for `/\s+/g → ' '`: a maximal whitespace run becomes one space. -/
def wsM (l : List Char) : Option (List Char × List Char) :=
  match l with
  | c :: rest =>
    if isWsChar c then some ([' '], rest.dropWhile isWsChar) else none
  | [] => none

/-- Index of the last `'\n'` in a list, if any. -/
def lastNlIdx (l : List Char) : Option Nat :=
  match l.reverse.findIdx? (fun c => c = '\n') with
  | some m => some (l.length - 1 - m)
  | none => none

/-- Matcher for `/\n\s*\n/g → '\n'`: from a `'\n'`, the greedy `\s*`
extends the match through the last newline of the following whitespace
run. -/
def nlM (l : List Char) : Option (List Char × List Char) :=
  match l with
  | [] => none
  | c :: rest =>
    if c = '\n' then
      let run := rest.takeWhile isWsChar
      match lastNlIdx run with
      | some k => some (['\n'], rest.drop (k + 1))
      | none => none
    else none

/-- Matcher for `/\n\s*\n\s*\n/g → '\n\n'` (the final cleanup of
`cleanJobContent`): a whitespace run containing at least three newlines is
matched through its last newline. -/
def nl3M (l : List Char) : Option (List Char × List Char) :=
  match l with
  | [] => none
  | c :: rest =>
    if c = '\n' then
      let run := (c :: rest).takeWhile isWsChar
      if 3 ≤ run.count '\n' then
        match lastNlIdx run with
        | some k => some (['\n', '\n'], (c :: rest).drop (k + 1))
        | none => none
      else none
    else none

/-- Drop trailing whitespace. -/
def trimEnd (l : List Char) : List Char :=
  (l.reverse.dropWhile isWsChar).reverse

/-- JS `String.prototype.trim`. -/
def jsTrim (l : List Char) : List Char :=
  trimEnd (l.dropWhile isWsChar)

/-- One pass of `String.replace` with a global regex, via its matcher. -/
def pass (m : List Char → Option (List Char × List Char)) (s : List Char) :
    List Char :=
  scanRepl m s.length s

/-- `extractTextFromHtml` from `src/api/scrape-advanced.ts` (lines 584-617),
on character lists: remove script/style blocks and comments, strip tags to
spaces, decode the fixed entity set, collapse whitespace, trim. -/
def extractTextL (s : List Char) : List Char :=
  let a1 := pass (scriptM "script".data "</script>".data) s
  let a2 := pass (scriptM "style".data "</style>".data) a1
  let a3 := pass commentM a2
  let a4 := pass tagM a3
  let e1 := pass (litM "&nbsp;".data " ".data) a4
  let e2 := pass (litM "&amp;".data "&".data) e1
  let e3 := pass (litM "&lt;".data "<".data) e2
  let e4 := pass (litM "&gt;".data ">".data) e3
  let e5 := pass (litM "&quot;".data "\"".data) e4
  let e6 := pass (litM "&#39;".data "'".data) e5
  let e7 := pass (litM "&apos;".data "'".data) e6
  let e8 := pass hexEntM e7
  let e9 := pass decEntM e8
  let w1 := pass wsM e9
  let w2 := pass nlM w1
  jsTrim w2

/-- `extractTextFromHtml` on `String`. -/
def extractTextFromHtml (s : String) : String := ⟨extractTextL s.data⟩

end Scrape

namespace Scrape

/-!  ### Word-boundary phrase patterns

The noise-phrase and section-header regexes are alternations of literal
phrases (one of them with a `.` wildcard), wrapped in `\b…\b` and flagged
`gi`.  Every alternative both starts and ends with a word character, so the
JS boundary assertions amount to: the preceding character (if any) and the
following character (if any) are non-word.  Within each alternation no
alternative is a case-insensitive prefix of another, so at a given position
at most one alternative can match and committing to the first token-level
match is exactly the JS leftmost-alternative behaviour. -/

inductive Tok where
  | lit (c : Char)
  | dot
  deriving DecidableEq

def litToks (s : String) : List Tok := s.data.map Tok.lit

/-- Match a token sequence case-insensitively at the head of `l`; `dot`
matches any character except a line terminator (JS `.`).  Returns the last
matched subject character and the remainder. -/
def matchToksCI : List Tok → Char → List Char → Option (Char × List Char)
  | [], last, l => some (last, l)
  | _ :: _, _, [] => none
  | Tok.lit c :: ts, _, x :: xs =>
    if lowerCh c = lowerCh x then matchToksCI ts x xs else none
  | Tok.dot :: ts, _, x :: xs =>
    if x = '\n' || x = '\r' || x = '\u2028' || x = '\u2029' then none
    else matchToksCI ts x xs

def tryAltsCI (alts : List (List Tok)) (l : List Char) :
    Option (Char × List Char) :=
  match alts with
  | [] => none
  | a :: rest =>
    match matchToksCI a ' ' l with
    | some r => some r
    | none => tryAltsCI rest l

def boundaryBefore : Option Char → Bool
  | none => true
  | some c => !isWordChar c

def boundaryAfter : List Char → Bool
  | [] => true
  | c :: _ => !isWordChar c

/-- Matcher for `/\b(alt|…)\b/gi` with a fixed replacement string. -/
def wordPatM (alts : List (List Tok)) (repl : List Char)
    (prev : Option Char) (l : List Char) :
    Option (List Char × Char × List Char) :=
  if boundaryBefore prev then
    match tryAltsCI alts l with
    | some (last, rem) =>
      if boundaryAfter rem then some (repl, last, rem) else none
    | none => none
  else none

/-- Matcher for `/phrase/gi` with no boundary assertions
(the noise patterns of `cleanJobContent`). -/
def plainPatM (pat : List Tok) (repl : List Char)
    (_prev : Option Char) (l : List Char) :
    Option (List Char × Char × List Char) :=
  match matchToksCI pat ' ' l with
  | some (last, rem) => some (repl, last, rem)
  | none => none

/-- Start index of the last case-insensitive occurrence of `pat` in `l`. -/
def lastOccCI (pat l : List Char) : Option Nat :=
  ((List.range (l.length + 1)).filter
    (fun i => isPrefixCI pat (l.drop i))).getLast?

/-- Matcher for `/Â©.*rights reserved/gi` of `cleanJobContent`: the literal
`Â©`, then the greedy `.*` (confined to the line), ending at the last
`rights reserved` on that line. -/
def copyM (_prev : Option Char) (l : List Char) :
    Option (List Char × Char × List Char) :=
  if isPrefixCI "Â©".data l then
    let rest2 := l.drop 2
    let line := rest2.takeWhile
      (fun c => !(c = '\n' || c = '\r' || c = '\u2028' || c = '\u2029'))
    let pat := "rights reserved".data
    match lastOccCI pat line with
    | some k => some ([], 'd', l.drop (2 + k + pat.length))
    | none => none
  else none

/-- One pass of a `\b`-aware global replacement. -/
def passB
    (m : Option Char → List Char → Option (List Char × Char × List Char))
    (s : List Char) : List Char :=
  scanReplB m s.length none s

/-- The five section-header canonicalization replaces, shared verbatim by
`cleanJobContent` (lines 522-527) and `enhanceJobContent` (lines 635-640). -/
def headerPasses (s : List Char) : List Char :=
  let h1 := passB (wordPatM
    [litToks "job description", litToks "description", litToks "overview"]
    "\n\nJob Description:".data) s
  let h2 := passB (wordPatM
    [litToks "responsibilities", litToks "duties",
      litToks "what you" ++ [Tok.dot] ++ litToks "ll do"]
    "\n\nResponsibilities:".data) h1
  let h3 := passB (wordPatM
    [litToks "requirements", litToks "qualifications",
      litToks "what we" ++ [Tok.dot] ++ litToks "re looking for"]
    "\n\nRequirements:".data) h2
  let h4 := passB (wordPatM
    [litToks "benefits", litToks "perks", litToks "what we offer"]
    "\n\nBenefits:".data) h3
  passB (wordPatM
    [litToks "about us", litToks "about the company",
      litToks "company overview"]
    "\n\nAbout the Company:".data) h4

/-- The artifact-removal and header-normalization stages of
`enhanceJobContent` (applied after the unconditional `Source:` banner). -/
def enhancePost (l : List Char) : List Char :=
  let n1 := passB (wordPatM [litToks "Apply now"] []) l
  let n2 := passB (wordPatM [litToks "Share this job"] []) n1
  let n3 := passB (wordPatM [litToks "Save job"] []) n2
  let n4 := passB (wordPatM [litToks "Back to search"] []) n3
  let n5 := passB (wordPatM [litToks "View all jobs"] []) n4
  let n6 := passB (wordPatM [litToks "Cookie policy"] []) n5
  let n7 := passB (wordPatM [litToks "Privacy policy"] []) n6
  headerPasses n7

/-- `enhanceJobContent` from `src/api/scrape-advanced.ts` (lines 619-647):
unconditionally prepends `Source: <hostname>`, removes seven noise phrases
(`\b`-delimited, case-insensitive), canonicalizes section headers. -/
def enhanceJobContent (content hostname : String) : String :=
  ⟨enhancePost ("Source: ".data ++ hostname.data ++ ('\n' :: '\n' :: content.data))⟩

/-- The `\s+ → ' '` collapse plus `trim()` opening `cleanJobContent`. -/
def cleanPre (content : List Char) : List Char :=
  jsTrim (pass wsM content)

/-- The noise-removal, header-normalization and final-cleanup stages of
`cleanJobContent` (everything after the conditional `Company:` banner). -/
def cleanPost (l : List Char) : List Char :=
  let n1 := passB (plainPatM (litToks "apply now") []) l
  let n2 := passB (plainPatM (litToks "share this job") []) n1
  let n3 := passB (plainPatM (litToks "save job") []) n2
  let n4 := passB (plainPatM (litToks "back to search") []) n3
  let n5 := passB (plainPatM (litToks "view all jobs") []) n4
  let n6 := passB (plainPatM (litToks "cookie policy") []) n5
  let n7 := passB (plainPatM (litToks "privacy policy") []) n6
  let n8 := passB (plainPatM (litToks "terms of service") []) n7
  let n9 := passB copyM n8
  let h := headerPasses n9
  jsTrim (pass nl3M h)

/-- `cleanJobContent` from `src/api/scrape-advanced.ts` (lines 495-533):
collapse whitespace and trim, prepend `Company: <company>` only when the
company name is not already present case-insensitively, remove nine noise
patterns, canonicalize headers, squeeze triple blank lines, trim. -/
def cleanJobContent (content company : String) : String :=
  let cleaned := cleanPre content.data
  let withBanner :=
    if isSubstr (lowerL company.data) (lowerL cleaned) then cleaned
    else "Company: ".data ++ company.data ++ ('\n' :: '\n' :: cleaned)
  ⟨cleanPost withBanner⟩

/-!  ### The regex-based "selector" extraction

`extractSpecializedContent` and `extractTargetedContent` take a CSS-ish
selector string, pull the first `.name` (resp. `#name`) out of it with
`/\.([a-zA-Z0-9_-]+)/` (resp. `/#…/`), and run
`new RegExp("<[^>]*class[^>]*NAME[^>]*>(.*?)<\\/[^>]*>", "gis")` (resp.
`id`) against the subject, taking the first match's capture group.
`[^>]*` cannot cross a `>`, so the opening tag of a match necessarily ends
at the first `>` after its `<`, and the lazy capture ends at the first
following `</…>` that has a later `>`. -/

def selAllowed (c : Char) : Bool := isWordChar c || c = '-'

/-- First `mark`-prefixed name (`[a-zA-Z0-9_-]+`) in a selector string. -/
def selNameAfter (mark : Char) : List Char → Option (List Char)
  | [] => none
  | c :: rest =>
    if c = mark then
      let nm := rest.takeWhile selAllowed
      if nm.isEmpty then selNameAfter mark rest else some nm
    else selNameAfter mark rest

def selClassName (sel : List Char) : Option (List Char) := selNameAfter '.' sel

def selIdName (sel : List Char) : Option (List Char) := selNameAfter '#' sel

/-- Does the inside of a tag contain `attr` followed by `nm`
(both case-insensitively)? -/
def tagHasAttrName (attr nm inside : List Char) : Bool :=
  match dropAfterCI attr inside with
  | some rem => containsCI nm rem
  | none => false

/-- The lazy `(.*?)<\/[^>]*>` part: the capture runs to the first `</` that
is followed by a later `>`. -/
def captureToClose : List Char → Option (List Char)
  | [] => none
  | '<' :: '/' :: rest =>
    match breakAt '>' rest with
    | some _ => some []
    | none => (captureToClose ('/' :: rest)).map (fun cs => '<' :: cs)
  | c :: rest => (captureToClose rest).map (fun cs => c :: cs)

/-- `regex.exec(html)`: first match of
`<[^>]*ATTR[^>]*NAME[^>]*>(.*?)<\/[^>]*>` (flags `gis`), returning the
capture group. -/
def attrExecCore (attr nm : List Char) : List Char → Option (List Char)
  | [] => none
  | c :: rest =>
    if c = '<' then
      match breakAt '>' rest with
      | some (inside, after) =>
        if tagHasAttrName attr nm inside then
          match captureToClose after with
          | some cap => some cap
          | none => none
        else attrExecCore attr nm rest
      | none => none
    else attrExecCore attr nm rest

/-- One iteration of the selector loop shared by `extractSpecializedContent`
and `extractTargetedContent`: try the class regex, then the id regex; a
candidate is accepted when its extracted text exceeds 200 characters.
(The `[data-…]` match is computed by the source but never used.) -/
def trySelector (sel : String) (text : List Char) : Option (List Char) :=
  let byClass :=
    match selClassName sel.data with
    | some nm =>
      match attrExecCore "class".data nm text with
      | some cap =>
        let c := extractTextL cap
        if 200 < c.length then some c else none
      | none => none
    | none => none
  match byClass with
  | some c => some c
  | none =>
    match selIdName sel.data with
    | some nm =>
      match attrExecCore "id".data nm text with
      | some cap =>
        let c := extractTextL cap
        if 200 < c.length then some c else none
      | none => none
    | none => none

/-- The selector loop; `[]` when no selector yields substantive content. -/
def runSelectors : List String → List Char → List Char
  | [], _ => []
  | sel :: rest, text =>
    match trySelector sel text with
    | some c => c
    | none => runSelectors rest text

end Scrape

namespace Scrape

/-!  ### Static site registry and orchestrator -/

structure SiteConfig where
  selectors : List String
  removeSelectors : List String
  company : String
  deriving DecidableEq, Repr

/-- `SPECIALIZED_CONFIGS` from `src/api/scrape-advanced.ts` (lines 4-187),
in source (insertion) order. -/
def SPECIALIZED_CONFIGS : List (String × SiteConfig) :=
  [ ("jobs.apple.com",
      { selectors := ["#jdp-job-description", ".job-description-content",
          ".jd-info", ".job-summary"],
        removeSelectors := [".apply-button", ".share-job", ".job-actions",
          "nav", "footer"],
        company := "Apple" }),
    ("careers.google.com",
      { selectors := ["[data-section=\"description\"]", ".job-description",
          ".gc-job-detail__content"],
        removeSelectors := [".gc-job-detail__apply", ".gc-job-detail__share",
          "nav", "footer"],
        company := "Google" }),
    ("amazon.jobs",
      { selectors := [".job-detail", ".job-description",
          "[data-test=\"job-description\"]"],
        removeSelectors := [".apply-button-container", ".job-alert",
          "nav", "footer"],
        company := "Amazon" }),
    ("careers.microsoft.com",
      { selectors := [".job-description-container", ".job-details",
          "[data-automation-id=\"jobPostingDescription\"]"],
        removeSelectors := [".apply-section", ".job-share", "nav", "footer"],
        company := "Microsoft" }),
    ("jobs.netflix.com",
      { selectors := [".job-description", ".job-posting-content",
          ".position-content"],
        removeSelectors := [".apply-now", ".share-job", "nav", "footer"],
        company := "Netflix" }),
    ("careers.meta.com",
      { selectors := ["[data-testid=\"job-description\"]", ".job-description",
          ".position-details"],
        removeSelectors := [".apply-button", ".job-share", "nav", "footer"],
        company := "Meta" }),
    ("jobs.lever.co",
      { selectors := [".section-wrapper", ".job-description", ".content"],
        removeSelectors := [".apply-button", ".postings-share", "nav",
          "footer"],
        company := "Various (Lever)" }),
    ("boards.greenhouse.io",
      { selectors := [".job-post-content", ".application-details",
          ".job-description"],
        removeSelectors := [".application-form", ".job-post-apply", "nav",
          "footer"],
        company := "Various (Greenhouse)" }),
    ("linkedin.com/jobs",
      { selectors := [".jobs-description-content__text",
          ".jobs-box__html-content", ".job-details"],
        removeSelectors := [".jobs-apply-button", ".jobs-save-button",
          ".jobs-share", "nav", "footer"],
        company := "Various (LinkedIn)" }),
    ("indeed.com",
      { selectors := [".jobsearch-jobDescriptionText",
          ".jobsearch-JobComponent-description", "#jobDescriptionText"],
        removeSelectors := [".jobsearch-IndeedApplyButton",
          ".jobsearch-JobMetadataFooter", "nav", "footer"],
        company := "Various (Indeed)" }),
    ("glassdoor.com",
      { selectors := [".jobDescriptionContent", ".desc",
          ".job-description-content"],
        removeSelectors := [".apply-btn", ".job-actions", "nav", "footer"],
        company := "Various (Glassdoor)" }),
    ("wellfound.com",
      { selectors := [".job-description", ".startup-job-listing",
          ".job-content"],
        removeSelectors := [".apply-button", ".job-share", "nav", "footer"],
        company := "Various (Wellfound)" }) ]

/-- `siteSelectors` from `src/api/scrape-advanced.ts` (lines 206-244). -/
def siteSelectorsTable : List (String × List String) :=
  [ ("linkedin.com", [".jobs-description-content__text",
      ".jobs-box__html-content", ".job-details", ".jobs-description"]),
    ("indeed.com", [".jobsearch-jobDescriptionText",
      ".jobsearch-JobComponent-description", "#jobDescriptionText",
      ".job-description"]),
    ("glassdoor.com", [".jobDescriptionContent", ".desc",
      ".job-description-content", ".jobDesc"]),
    ("lever.co", [".section-wrapper", ".job-description", ".content"]),
    ("greenhouse.io", [".job-post-content", ".application-details",
      ".job-description"]),
    ("workday.com", ["[data-automation-id=\"jobPostingDescription\"]",
      ".jobPostingDescription", ".job-description"]),
    ("bamboohr.com", [".job-description", ".BambooHR-ATS-Description"]) ]

/-- The registry matching rule as the source computes it
(`hostname.includes(domain) || domain.includes(hostname.replace('www.', ''))`,
lines 280-281, 430-431) — note `String.replace` with a string pattern
removes the *first* occurrence of `www.`, wherever it is. -/
def codeMatch (hostname fragment : List Char) : Bool :=
  isSubstr fragment hostname ||
    isSubstr (replaceFirstL "www.".data [] hostname) fragment

/-- The registry lookup over a (lower-cased) hostname: the first entry of
`SPECIALIZED_CONFIGS` whose fragment matches (`extractSpecializedContent`
lines 430-436, and `SpecializedScraper.getSiteConfig`). -/
def findConfigH (h : String) : Option (String × SiteConfig) :=
  SPECIALIZED_CONFIGS.find? (fun p => codeMatch h.data p.1.data)

/-- Modelled from the spec: the handler and the specialized extractor read
`parsedUrl.hostname` from the platform's `new URL(url)` (WHATWG), which is
not part of the repository.  We model absolute `http`/`https` URL parsing:
the hostname is the maximal run after the scheme up to a `/`, `:`, `?` or
`#`, lower-cased; an empty hostname or any other shape fails to parse
(`new URL` throws). -/
def parseHostname (url : String) : Option String :=
  let l := url.data
  let afterScheme : Option (List Char) :=
    if "https://".data.isPrefixOf l then some (l.drop 8)
    else if "http://".data.isPrefixOf l then some (l.drop 7)
    else none
  match afterScheme with
  | none => none
  | some rest =>
    let host := rest.takeWhile (fun c => !(c = '/' || c = ':' || c = '?' || c = '#'))
    if host.isEmpty then none else some ⟨lowerL host⟩

structure SpecResult where
  content : String
  method : String
  deriving DecidableEq, Repr

/-- `extractSpecializedContent` from `src/api/scrape-advanced.ts`
(lines 422-493).  The one fallible step of its body is `new URL(url)`; the
surrounding `try`/`catch` turns that failure into `null`, modelled by the
`none` branch of `parseHostname`. -/
def extractSpecializedContent (html url : String) : Option SpecResult :=
  match parseHostname url with
  | none => none
  | some h =>
    match findConfigH h with
    | none => none
    | some (domain, cfg) =>
      let jc := runSelectors cfg.selectors html.data
      if jc.length < 100 then none
      else some { content := cleanJobContent ⟨jc⟩ cfg.company,
                  method := "specialized-" ++ domain }

/-- `extractTargetedContent` from `src/api/scrape-advanced.ts`
(lines 535-582): the same selector loop, returning the first candidate
whose extracted text exceeds 200 characters, else `null`. -/
def extractTargetedContent (html : String) (selectors : List String) :
    Option String :=
  let r := runSelectors selectors html.data
  if r.isEmpty then none else some ⟨r⟩

/-- The outcome of the outbound `fetch` — the network is outside the
program, so the handler is modelled as a function of it.  `timeout` is the
`AbortSignal.timeout(20000)` abort; `netError` any other transport
failure. -/
inductive FetchOutcome where
  | success (body : String)
  | httpError (status : Nat)
  | timeout
  | netError
  deriving DecidableEq, Repr

/-- `basicScrape` (lines 355-388): a non-2xx response throws, the body is
normalized with `extractTextFromHtml`; the `catch` swallows *every* error —
including the timeout abort — and returns `null`. -/
def basicScrape (fo : FetchOutcome) : Option String :=
  match fo with
  | .success body => some (extractTextFromHtml body)
  | _ => none

/-- `targetedScrape` (lines 390-420).  Note that the `html` variable it
passes to both extractors is the return value of `basicScrape`, i.e. the
already tag-stripped text, and that its final fallback runs
`extractTextFromHtml` on that text a second time. -/
def targetedScrape (fo : FetchOutcome) (url hostname : String) :
    Option String :=
  match basicScrape fo with
  | none => none
  | some text =>
    let afterSpec : Option String :=
      match extractSpecializedContent text url with
      | some r => if 200 < r.content.length then some r.content else none
      | none => none
    match afterSpec with
    | some c => some c
    | none =>
      match siteSelectorsTable.find? (fun p => isSubstr p.1.data hostname.data) with
      | some (_, sels) =>
        match extractTargetedContent text sels with
        | some tc =>
          if 200 < tc.length then some tc
          else some (extractTextFromHtml text)
        | none => some (extractTextFromHtml text)
      | none => some (extractTextFromHtml text)

/-- `hasSpecializedScraper` in the handler (lines 280-282). -/
def hasSpecializedScraper (hostname : String) : Bool :=
  SPECIALIZED_CONFIGS.any (fun p => codeMatch hostname.data p.1.data)

structure ApiResponse where
  status : Nat
  success : Bool
  content : Option String
  contentLength : Option Nat
  method : Option String
  hostname : Option String
  error : Option String
  deriving DecidableEq, Repr

def errResponse (status : Nat) (msg : String) (method : Option String) :
    ApiResponse :=
  { status := status, success := false, content := none, contentLength := none,
    method := method, hostname := none, error := some msg }

/-- JS truthiness of the short-content checks:
`!content || content.length < n` (the empty string is falsy, and also has
length `0 < n`). -/
def jsFalsyShort (c : Option String) (n : Nat) : Bool :=
  match c with
  | none => true
  | some s => s.length < n

/-- The handler's `switch (strategy)` (lines 285-305): content and method
for each strategy; any string other than `basic`/`targeted` takes the
`auto`/default branch. -/
def scrapeDispatch (fo : FetchOutcome) (url host strategy : String) :
    Option String × String :=
  if strategy = "basic" then (basicScrape fo, "basic")
  else if strategy = "targeted" then
    (targetedScrape fo url host,
      if hasSpecializedScraper host then "specialized-targeted" else "targeted")
  else
    if jsFalsyShort (targetedScrape fo url host) 200 then
      (basicScrape fo, "basic-fallback")
    else
      (targetedScrape fo url host,
        if hasSpecializedScraper host then "specialized-targeted"
        else "targeted")

/-- The 200 response: the extracted content is enhanced, truncated to
20000 characters, and reported together with its length. -/
def successResponse (host method c : String) : ApiResponse :=
  { status := 200, success := true,
    content := some ⟨(enhanceJobContent c host).data.take 20000⟩,
    contentLength :=
      some (⟨(enhanceJobContent c host).data.take 20000⟩ : String).length,
    method := some method, hostname := some host, error := none }

/-- The POST handler of `src/api/scrape-advanced.ts` (lines 246-353) for a
given fetch outcome: URL validation, strategy dispatch, the minimum-length
check on the extracted content, then enhancement and truncation to 20000
characters. -/
def handleRequest (url strategy : String) (fo : FetchOutcome) : ApiResponse :=
  if url = "" then errResponse 400 "URL is required" none
  else
    match parseHostname url with
    | none => errResponse 400 "Invalid URL provided" none
    | some host =>
      if jsFalsyShort (scrapeDispatch fo url host strategy).1 100 then
        errResponse 400 "Could not extract meaningful content from webpage"
          (some (scrapeDispatch fo url host strategy).2)
      else
        successResponse host (scrapeDispatch fo url host strategy).2
          ((scrapeDispatch fo url host strategy).1.getD "")

/-- Modelled from the spec: the claim's statement of the registry matching
rule — `h` contains `f`, or `f` contains `h` after a *leading* `www.` is
stripped from `h` (compare `codeMatch`, which removes the first occurrence
of `www.` anywhere in `h`). -/
def specMatchModel (h f : String) : Bool :=
  isSubstr f.data h.data ||
    isSubstr (if "www.".data.isPrefixOf h.data then h.data.drop 4 else h.data)
      f.data

/-- The split invariant of tag-stripped text: a `<`-free part followed by
a `>`-free part, so no `<…>` pattern (hence no selector-regex match)
occurs.  Established by `tagStrip_angle` below. -/
def AngleSplit (s : List Char) : Prop :=
  ∃ u v, s = u ++ v ∧ '<' ∉ u ∧ '>' ∉ v

/-- A string is flat when all its whitespace is the single space character
and no two whitespace characters are adjacent — the invariant established
by the `\s+ → ' '` pass. -/
def Flat (l : List Char) : Prop :=
  (∀ c ∈ l, isWsChar c = true → c = ' ') ∧
  l.Chain' (fun a b => ¬(isWsChar a = true ∧ isWsChar b = true))

/-!  ### Concrete fixtures used by counterexamples and witnesses -/

/-- 109 characters of page text consisting only of the noise phrase
`Apply now`: long enough to pass the handler's 100-character check, but
shrunk to 25 characters by the enhancer's noise removal. -/
def noiseOnlyHtml : String :=
  "Apply now Apply now Apply now Apply now Apply now Apply now Apply now Apply now Apply now Apply now Apply now"

/-- 120 characters of plain text (a trivially successful page). -/
def plainLongHtml : String := ⟨List.replicate 120 'a'⟩

/-- The scenario-C fixture: a registered site's page whose
`.job-description` block is surrounded by nav/footer boilerplate. -/
def scenarioCHtml : String :=
  "<html><body><nav>SiteNavigationMenu Home Jobs Careers Contact Login Search Help Press Blog Teams Students Support</nav><div class=\"job-description\">Engineer role: build systems, write code, review designs, ship features, mentor peers, and grow the platform with great care.</div><footer>FooterLegalBlock Terms Contact</footer></body></html>"

/-- What the handler actually returns for the scenario-C fixture: the
whole-page normalization, nav and footer included. -/
def scenarioCContent : String :=
  "Source: careers.google.com\n\nSiteNavigationMenu Home Jobs Careers Contact Login Search Help Press Blog Teams Students Support Engineer role: build systems, write code, review designs, ship features, mentor peers, and grow the platform with great care. FooterLegalBlock Terms Contact"

/-- A page whose markup is entity-encoded: the normalizer decodes it back
into literal tags. -/
def entityTagHtml : String :=
  "&lt;p class=job-details&gt;We build large distributed systems and need engineers who love reliability, performance, and clean code. You will design, implement, test and operate services used by millions every day, collaborating closely with product teams.&lt;/p&gt;"

/-- The `careers.google.com` entry of the registry. -/
def googleCfg : SiteConfig :=
  { selectors := ["[data-section=\"description\"]", ".job-description",
      ".gc-job-detail__content"],
    removeSelectors := [".gc-job-detail__apply", ".gc-job-detail__share",
      "nav", "footer"],
    company := "Google" }

end Scrape

namespace Scrape

theorem breakAt_some {c : Char} :
    ∀ {l b a : List Char}, breakAt c l = some (b, a) → l = b ++ c :: a := by
  intro l
  induction l with
  | nil => intro b a h; simp [breakAt] at h
  | cons x xs ih =>
    intro b a h
    rw [breakAt] at h
    by_cases hx : x = c
    · rw [if_pos hx] at h
      injection h with h
      have h1 : b = [] := (congrArg Prod.fst h).symm
      have h2 : a = xs := (congrArg Prod.snd h).symm
      subst h1; subst h2; rw [hx]; rfl
    · rw [if_neg hx] at h
      cases hxs : breakAt c xs with
      | none => rw [hxs] at h; simp at h
      | some p =>
        obtain ⟨b', a'⟩ := p
        rw [hxs] at h
        simp only [Option.map_some'] at h
        injection h with h
        have h1 : b = x :: b' := (congrArg Prod.fst h).symm
        have h2 : a = a' := (congrArg Prod.snd h).symm
        subst h1; subst h2
        simp [ih hxs]

theorem breakAt_isNone {c : Char} :
    ∀ {l : List Char}, breakAt c l = none → c ∉ l := by
  intro l
  induction l with
  | nil => intro h; simp
  | cons x xs ih =>
    intro h
    rw [breakAt] at h
    by_cases hx : x = c
    · rw [if_pos hx] at h; simp at h
    · rw [if_neg hx] at h
      rw [Option.map_eq_none'] at h
      intro hmem
      rcases List.mem_cons.mp hmem with h1 | h1
      · exact hx h1.symm
      · exact ih h h1

theorem breakAt_of_not_mem {c : Char} {l : List Char} (h : c ∉ l) :
    breakAt c l = none := by
  cases hb : breakAt c l with
  | none => rfl
  | some p =>
    obtain ⟨b, a⟩ := p
    exact absurd (breakAt_some hb ▸ (by simp : c ∈ b ++ c :: a)) h

theorem breakAt_suffix {c : Char} {l b a : List Char}
    (h : breakAt c l = some (b, a)) : a <:+ l := by
  rw [breakAt_some h]
  exact ⟨b ++ [c], by simp⟩

theorem breakAt_length {c : Char} {l b a : List Char}
    (h : breakAt c l = some (b, a)) : a.length < l.length := by
  rw [breakAt_some h]; simp; omega

theorem dropAfterCI_suffix {pat : List Char} :
    ∀ {l rem : List Char}, dropAfterCI pat l = some rem → rem <:+ l := by
  intro l
  induction l with
  | nil =>
    intro rem h
    simp [dropAfterCI] at h
    rcases h with ⟨_, h⟩
    subst h; exact List.nil_suffix
  | cons x xs ih =>
    intro rem h
    by_cases hp : isPrefixCI pat (x :: xs) = true
    · simp [dropAfterCI, hp] at h
      subst h
      exact List.drop_suffix _ _
    · simp [dropAfterCI, hp] at h
      exact (ih h).trans (List.suffix_cons x xs)

theorem isPrefixOf_head {p0 c : Char} {pt rest : List Char}
    (h : (p0 :: pt).isPrefixOf (c :: rest) = true) : c = p0 := by
  rw [ List.isPrefixOf_iff_prefix, List.cons_prefix_cons] at h
  exact h.1.symm

/-!  ### Generic facts about the replacement engine -/

theorem scanRepl_nil (m : List Char → Option (List Char × List Char)) :
    ∀ fuel, scanRepl m fuel [] = [] := by
  intro fuel; cases fuel <;> rfl

theorem scanRepl_id {m : List Char → Option (List Char × List Char)}
    {trig : Char → Prop}
    (hm : ∀ c rest, m (c :: rest) ≠ none → trig c) :
    ∀ (fuel : Nat) (s : List Char), (∀ c ∈ s, ¬ trig c) →
      scanRepl m fuel s = s := by
  intro fuel
  induction fuel with
  | zero => intro s _; rfl
  | succ n ih =>
    intro s hs
    cases s with
    | nil => rfl
    | cons c rest =>
      have hnone : m (c :: rest) = none := by
        by_contra hne
        exact hs c (List.mem_cons_self c rest) (hm c rest hne)
      simp only [scanRepl, hnone]
      exact congrArg (c :: ·) (ih rest fun x hx => hs x (List.mem_cons_of_mem _ hx))

theorem scanRepl_mem {m : List Char → Option (List Char × List Char)}
    {A : Char → Prop}
    (hm : ∀ l r after, m l = some (r, after) → (∀ c ∈ r, A c) ∧ after <:+ l) :
    ∀ (fuel : Nat) (s : List Char) (c : Char),
      c ∈ scanRepl m fuel s → c ∈ s ∨ A c := by
  intro fuel
  induction fuel with
  | zero => intro s c hc; exact Or.inl hc
  | succ n ih =>
    intro s c hc
    cases s with
    | nil => rw [scanRepl_nil] at hc; simp at hc
    | cons x rest =>
      cases hmx : m (x :: rest) with
      | none =>
        simp only [scanRepl, hmx] at hc
        rcases List.mem_cons.mp hc with h | h
        · exact Or.inl (h ▸ List.mem_cons_self x rest)
        · rcases ih rest c h with h' | h'
          · exact Or.inl (List.mem_cons_of_mem _ h')
          · exact Or.inr h'
      | some p =>
        obtain ⟨r, after⟩ := p
        obtain ⟨hrA, hsuf⟩ := hm _ _ _ hmx
        simp only [scanRepl, hmx, List.mem_append] at hc
        rcases hc with h | h
        · exact Or.inr (hrA c h)
        · rcases ih after c h with h' | h'
          · exact Or.inl (hsuf.subset h')
          · exact Or.inr h'

/-!  ### Triggers: which head characters can start a match -/

theorem scriptM_trig {op cl : List Char} {c : Char} {rest : List Char}
    (h : scriptM op cl (c :: rest) ≠ none) : c = '<' := by
  by_contra hc
  exact h (by simp [scriptM, hc])

theorem commentM_trig {c : Char} {rest : List Char}
    (h : commentM (c :: rest) ≠ none) : c = '<' := by
  by_contra hc
  apply h
  rw [commentM]
  have : "<!--".data.isPrefixOf (c :: rest) = false := by
    by_contra hp
    exact hc (isPrefixOf_head (c := c) (by simpa using hp))
  simp [this]

theorem tagM_trig {c : Char} {rest : List Char}
    (h : tagM (c :: rest) ≠ none) : c = '<' := by
  by_contra hc
  exact h (by simp [tagM, hc])

theorem litM_trig {p0 : Char} {pt repl : List Char} {c : Char} {rest : List Char}
    (h : litM (p0 :: pt) repl (c :: rest) ≠ none) : c = p0 := by
  by_contra hc
  apply h
  rw [litM]
  have : (p0 :: pt).isPrefixOf (c :: rest) = false := by
    by_contra hp
    exact hc (isPrefixOf_head (by simpa using hp))
  simp [this]

theorem hexEntM_trig {c : Char} {rest : List Char}
    (h : hexEntM (c :: rest) ≠ none) : c = '&' := by
  by_contra hc
  apply h
  rw [hexEntM]
  have : "&#x".data.isPrefixOf (c :: rest) = false := by
    by_contra hp
    exact hc (isPrefixOf_head (c := c) (by simpa using hp))
  simp [this]

theorem decEntM_trig {c : Char} {rest : List Char}
    (h : decEntM (c :: rest) ≠ none) : c = '&' := by
  by_contra hc
  apply h
  rw [decEntM]
  have : "&#".data.isPrefixOf (c :: rest) = false := by
    by_contra hp
    exact hc (isPrefixOf_head (c := c) (by simpa using hp))
  simp [this]

theorem wsM_trig {c : Char} {rest : List Char}
    (h : wsM (c :: rest) ≠ none) : isWsChar c = true := by
  cases hw : isWsChar c with
  | true => rfl
  | false => exact (h (by simp [wsM, hw])).elim

theorem nlM_trig {c : Char} {rest : List Char}
    (h : nlM (c :: rest) ≠ none) : c = '\n' := by
  by_contra hc
  exact h (by simp [nlM, hc])

/-!  ### Specs: replacements and remainders of successful matches -/

theorem scriptM_spec {op cl l r after : List Char}
    (h : scriptM op cl l = some (r, after)) :
    r = [] ∧ after <:+ l := by
  cases l with
  | nil => simp [scriptM] at h
  | cons c rest =>
    simp only [scriptM] at h
    by_cases hc : c = '<'
    · rw [if_pos hc] at h
      by_cases hp : isPrefixCI op rest = true
      · rw [if_pos hp] at h
        cases hrest : rest.drop op.length with
        | nil => rw [hrest] at h; simp at h
        | cons c2 t2 =>
          rw [hrest] at h
          by_cases hw : isWordChar c2 = true
          · simp [hw] at h
          · rw [Bool.not_eq_true] at hw
            simp only [hw, Bool.false_eq_true, if_false] at h
            cases hd : dropAfterCI cl (c2 :: t2) with
            | none => rw [hd] at h; simp at h
            | some rem =>
              rw [hd] at h
              injection h with h
              have h1 : r = [] := (congrArg Prod.fst h).symm
              have h2 : after = rem := (congrArg Prod.snd h).symm
              refine ⟨h1, ?_⟩
              rw [h2]
              have hsub : rem <:+ (c2 :: t2) := dropAfterCI_suffix hd
              exact (hsub.trans (hrest ▸ List.drop_suffix _ _)).trans
                (List.suffix_cons c rest)
      · rw [if_neg hp] at h; simp at h
    · rw [if_neg hc] at h; simp at h

theorem commentM_spec {l r after : List Char}
    (h : commentM l = some (r, after)) :
    r = [] ∧ after <:+ l := by
  rw [commentM] at h
  by_cases hp : "<!--".data.isPrefixOf l = true
  · rw [if_pos hp] at h
    cases hd : dropAfterCI "-->".data (l.drop 4) with
    | none => rw [hd] at h; simp at h
    | some rem =>
      rw [hd] at h
      injection h with h
      have h1 : r = [] := (congrArg Prod.fst h).symm
      have h2 : after = rem := (congrArg Prod.snd h).symm
      subst h1; subst h2
      exact ⟨rfl, (dropAfterCI_suffix hd).trans (List.drop_suffix _ _)⟩
  · rw [if_neg hp] at h; simp at h

theorem tagM_spec {l r after : List Char}
    (h : tagM l = some (r, after)) :
    r = [' '] ∧ after <:+ l ∧ after.length < l.length := by
  cases l with
  | nil => simp [tagM] at h
  | cons c rest =>
    rw [tagM] at h
    by_cases hc : c = '<'
    · rw [if_pos hc] at h
      cases hb : breakAt '>' rest with
      | none => rw [hb] at h; simp at h
      | some p =>
        obtain ⟨b, a⟩ := p
        rw [hb] at h
        injection h with h
        have h1 : r = [' '] := (congrArg Prod.fst h).symm
        have h2 : after = a := (congrArg Prod.snd h).symm
        subst h1; subst h2
        exact ⟨rfl, (breakAt_suffix hb).trans (List.suffix_cons c rest),
          Nat.lt_succ_of_lt (by simpa using breakAt_length hb)⟩
    · rw [if_neg hc] at h; simp at h

theorem litM_spec {pat repl l r after : List Char}
    (h : litM pat repl l = some (r, after)) :
    r = repl ∧ after <:+ l := by
  rw [litM] at h
  by_cases hp : pat.isPrefixOf l = true
  · rw [if_pos hp] at h
    injection h with h
    have h1 : r = repl := (congrArg Prod.fst h).symm
    have h2 : after = l.drop pat.length := (congrArg Prod.snd h).symm
    subst h1; subst h2
    exact ⟨rfl, List.drop_suffix _ _⟩
  · rw [if_neg hp] at h; simp at h

theorem wsM_spec {l r after : List Char}
    (h : wsM l = some (r, after)) :
    r = [' '] ∧ after <:+ l := by
  cases l with
  | nil => simp [wsM] at h
  | cons c rest =>
    rw [wsM] at h
    by_cases hc : isWsChar c = true
    · rw [if_pos hc] at h
      injection h with h
      have h1 : r = [' '] := (congrArg Prod.fst h).symm
      have h2 : after = rest.dropWhile isWsChar := (congrArg Prod.snd h).symm
      subst h1; subst h2
      exact ⟨rfl, (List.dropWhile_suffix _).trans (List.suffix_cons c rest)⟩
    · rw [if_neg hc] at h; simp at h

theorem nlM_spec {l r after : List Char}
    (h : nlM l = some (r, after)) :
    r = ['\n'] ∧ after <:+ l := by
  cases l with
  | nil => simp [nlM] at h
  | cons c rest =>
    simp only [nlM] at h
    by_cases hc : c = '\n'
    · rw [if_pos hc] at h
      cases hk : lastNlIdx (rest.takeWhile isWsChar) with
      | none => rw [hk] at h; simp at h
      | some k =>
        rw [hk] at h
        injection h with h
        have h1 : r = ['\n'] := (congrArg Prod.fst h).symm
        have h2 : after = rest.drop (k + 1) := (congrArg Prod.snd h).symm
        subst h1; subst h2
        exact ⟨rfl, (List.drop_suffix _ _).trans (List.suffix_cons c rest)⟩
    · rw [if_neg hc] at h; simp at h

/-!  ### Tag-free splits

After the tag-stripping pass, a remaining `<` is never followed by a `>`,
so the subject splits into a `<`-free part followed by a `>`-free part and
the selector regexes (which need a full `<…>`) cannot match. -/

theorem angleSplit_nil : AngleSplit [] := ⟨[], [], rfl, by simp, by simp⟩

theorem angleSplit_of_no_gt {s : List Char} (h : '>' ∉ s) : AngleSplit s :=
  ⟨[], s, rfl, by simp, h⟩

theorem AngleSplit.suffix {s s' : List Char} (hs : s' <:+ s)
    (h : AngleSplit s) : AngleSplit s' := by
  obtain ⟨u, v, heq, hu, hv⟩ := h
  obtain ⟨t, ht⟩ := hs
  rw [heq] at ht
  rcases List.append_eq_append_iff.mp ht with ⟨a, ha1, ha2⟩ | ⟨c', hc1, hc2⟩
  · exact ⟨a, v, ha2, fun hm => hu (ha1.symm ▸ List.mem_append_right t hm), hv⟩
  · exact ⟨[], s', by simp, by simp,
      fun hm => hv (hc2.symm ▸ List.mem_append_right c' hm)⟩

theorem AngleSplit.pre {s s' : List Char} (hs : s' <+: s)
    (h : AngleSplit s) : AngleSplit s' := by
  obtain ⟨u, v, heq, hu, hv⟩ := h
  obtain ⟨t, ht⟩ := hs
  rw [heq] at ht
  rcases List.append_eq_append_iff.mp ht with ⟨a, ha1, ha2⟩ | ⟨c', hc1, hc2⟩
  · exact ⟨s', [], by simp, fun hm => hu (ha1.symm ▸ List.mem_append_left a hm),
      by simp⟩
  · exact ⟨u, c', hc1, hu, fun hm => hv (hc2.symm ▸ List.mem_append_left t hm)⟩

theorem AngleSplit.cons {c : Char} {s : List Char} (hc : c ≠ '<')
    (h : AngleSplit s) : AngleSplit (c :: s) := by
  obtain ⟨u, v, heq, hu, hv⟩ := h
  exact ⟨c :: u, v, by rw [heq, List.cons_append], by simp [hu, Ne.symm hc, hc], hv⟩

theorem angleSplit_head_lt {rest : List Char}
    (h : AngleSplit ('<' :: rest)) : '>' ∉ rest := by
  obtain ⟨u, v, heq, hu, hv⟩ := h
  cases u with
  | nil =>
    simp at heq
    intro hm
    exact hv (heq ▸ List.mem_cons_of_mem _ hm)
  | cons u0 us =>
    have : u0 = '<' := by
      have := congrArg (fun l => l.head?) heq
      simpa using this.symm
    exact absurd (this ▸ List.mem_cons_self u0 us) hu

/-- The tag-stripping pass leaves a subject in which no `<` is ever
followed by a `>`. -/
theorem tagStrip_angle :
    ∀ (fuel : Nat) (s : List Char), s.length ≤ fuel →
      AngleSplit (scanRepl tagM fuel s) := by
  intro fuel
  induction fuel with
  | zero =>
    intro s hs
    have : s = [] := List.length_eq_zero.mp (Nat.le_zero.mp hs)
    subst this; exact angleSplit_nil
  | succ n ih =>
    intro s hs
    cases s with
    | nil => rw [scanRepl_nil]; exact angleSplit_nil
    | cons c rest =>
      by_cases hc : c = '<'
      · subst hc
        cases hb : breakAt '>' rest with
        | some p =>
          obtain ⟨b, a⟩ := p
          have hm : tagM ('<' :: rest) = some ([' '], a) := by
            simp [tagM, hb]
          simp only [scanRepl, hm]
          have ha : a.length ≤ n := by
            have := breakAt_length hb
            simp at hs
            omega
          obtain ⟨u, v, heq, hu, hv⟩ := ih a ha
          exact ⟨' ' :: u, v, by simp [heq], by simp [hu], hv⟩
        | none =>
          have hm : tagM ('<' :: rest) = none := by simp [tagM, hb]
          simp only [scanRepl, hm]
          have hgt : '>' ∉ rest := breakAt_isNone hb
          have hgt' : '>' ∉ scanRepl tagM n rest := by
            intro hmem
            rcases scanRepl_mem
              (A := fun c => c = ' ')
              (fun l r after hma => by
                obtain ⟨h1, h2, _⟩ := tagM_spec hma
                exact ⟨by intro x hx; rw [h1] at hx; simpa using hx, h2⟩)
              n rest '>' hmem with h' | h'
            · exact hgt h'
            · exact absurd h' (by decide)
          exact angleSplit_of_no_gt (by
            intro hmem
            rcases List.mem_cons.mp hmem with h' | h'
            · exact absurd h' (by decide)
            · exact hgt' h')
      · have hm : tagM (c :: rest) = none := by simp [tagM, hc]
        simp only [scanRepl, hm]
        have : rest.length ≤ n := by simp at hs; omega
        exact AngleSplit.cons hc (ih rest this)

/-- Passes whose replacements contain no angle bracket preserve the
split. -/
theorem angle_scanRepl {m : List Char → Option (List Char × List Char)}
    (hm : ∀ l r after, m l = some (r, after) →
      (∀ c ∈ r, c = ' ' ∨ c = '\n') ∧ after <:+ l) :
    ∀ (fuel : Nat) (s : List Char), AngleSplit s →
      AngleSplit (scanRepl m fuel s) := by
  intro fuel
  induction fuel with
  | zero => intro s hs; exact hs
  | succ n ih =>
    intro s hs
    cases s with
    | nil => rw [scanRepl_nil]; exact angleSplit_nil
    | cons c rest =>
      cases hmx : m (c :: rest) with
      | some p =>
        obtain ⟨r, after⟩ := p
        obtain ⟨hr, hsuf⟩ := hm _ _ _ hmx
        simp only [scanRepl, hmx]
        obtain ⟨u, v, heq, hu, hv⟩ := ih after (hs.suffix hsuf)
        refine ⟨r ++ u, v, by rw [heq, List.append_assoc], ?_, hv⟩
        intro hmem
        rcases List.mem_append.mp hmem with h' | h'
        · rcases hr _ h' with h'' | h'' <;> simp at h''
        · exact hu h'
      | none =>
        simp only [scanRepl, hmx]
        by_cases hc : c = '<'
        · subst hc
          have hgt : '>' ∉ rest := angleSplit_head_lt hs
          have hgt' : '>' ∉ scanRepl m n rest := by
            intro hmem
            rcases scanRepl_mem
              (A := fun c => c = ' ' ∨ c = '\n')
              (fun l r after hma => hm _ _ _ hma) n rest '>' hmem with h' | h'
            · exact hgt h'
            · rcases h' with h'' | h'' <;> simp at h''
          exact angleSplit_of_no_gt (by
            intro hmem
            rcases List.mem_cons.mp hmem with h' | h'
            · exact absurd h' (by decide)
            · exact hgt' h')
        · exact AngleSplit.cons hc
            (ih rest (hs.suffix (List.suffix_cons c rest)))

/-- On an angle-split subject the open-tag regex never matches, so
`attrExecCore` returns `none`. -/
theorem attrExecCore_angle (attr nm : List Char) :
    ∀ {l : List Char}, AngleSplit l → attrExecCore attr nm l = none := by
  intro l
  induction l with
  | nil => intro _; rfl
  | cons c rest ih =>
    intro h
    by_cases hc : c = '<'
    · subst hc
      have : breakAt '>' rest = none :=
        breakAt_of_not_mem (angleSplit_head_lt h)
      simp [attrExecCore, this]
    · simp only [attrExecCore, if_neg hc]
      exact ih (h.suffix (List.suffix_cons c rest))

theorem trySelector_angle (sel : String) {text : List Char}
    (h : AngleSplit text) : trySelector sel text = none := by
  rw [trySelector]
  cases hc : selClassName sel.data with
  | some nm => simp [attrExecCore_angle _ _ h]
               cases hi : selIdName sel.data with
               | some nm2 => simp [attrExecCore_angle _ _ h]
               | none => rfl
  | none =>
    simp only []
    cases hi : selIdName sel.data with
    | some nm2 => simp [attrExecCore_angle _ _ h]
    | none => rfl

theorem runSelectors_angle (sels : List String) {text : List Char}
    (h : AngleSplit text) : runSelectors sels text = [] := by
  induction sels with
  | nil => rfl
  | cons sel rest ih =>
    rw [runSelectors, trySelector_angle sel h]
    exact ih

/-!  ### Flat strings: the shape of whitespace-collapsed output -/

theorem flat_nil : Flat [] := ⟨by simp, List.chain'_nil⟩

theorem Flat.tail {c : Char} {l : List Char} (h : Flat (c :: l)) : Flat l :=
  ⟨fun x hx => h.1 x (List.mem_cons_of_mem c hx), h.2.tail⟩

theorem Flat.sfx {l l' : List Char} (hs : l' <:+ l) (h : Flat l) : Flat l' :=
  ⟨fun c hc => h.1 c (hs.subset hc), h.2.suffix hs⟩

theorem Flat.pfx {l l' : List Char} (hs : l' <+: l) (h : Flat l) : Flat l' :=
  ⟨fun c hc => h.1 c (hs.subset hc), List.Chain'.prefix h.2 hs⟩

theorem head_dropWhile_false {p : Char → Bool} :
    ∀ {l : List Char} {c : Char} {t : List Char},
      l.dropWhile p = c :: t → p c = false := by
  intro l
  induction l with
  | nil => intro c t h; simp at h
  | cons x xs ih =>
    intro c t h
    rw [List.dropWhile_cons] at h
    by_cases hx : p x = true
    · rw [if_pos hx] at h; exact ih h
    · rw [if_neg hx] at h
      injection h with h1 _
      rw [← h1]
      exact Bool.not_eq_true _ ▸ hx

theorem flat_wsPass :
    ∀ (fuel : Nat) (s : List Char), s.length ≤ fuel →
      Flat (scanRepl wsM fuel s) := by
  intro fuel
  induction fuel with
  | zero =>
    intro s hs
    have : s = [] := List.length_eq_zero.mp (Nat.le_zero.mp hs)
    subst this; exact flat_nil
  | succ n ih =>
    intro s hs
    cases s with
    | nil => rw [scanRepl_nil]; exact flat_nil
    | cons c rest =>
      by_cases hws : isWsChar c = true
      · have hm : wsM (c :: rest) = some ([' '], rest.dropWhile isWsChar) := by
          simp [wsM, hws]
        simp only [scanRepl, hm]
        have hdlen : (rest.dropWhile isWsChar).length ≤ n := by
          have h1 := (List.dropWhile_suffix (l := rest) isWsChar).length_le
          simp at hs; omega
        have hflat := ih _ hdlen
        constructor
        · intro x hx hxws
          rcases List.mem_cons.mp (by simpa using hx) with h1 | h1
          · exact h1
          · exact hflat.1 x h1 hxws
        · have hsingle : (List.singleton ' ') ++ scanRepl wsM n (rest.dropWhile isWsChar)
              = ' ' :: scanRepl wsM n (rest.dropWhile isWsChar) := rfl
          rw [show ([' '] : List Char) ++ scanRepl wsM n (rest.dropWhile isWsChar)
              = ' ' :: scanRepl wsM n (rest.dropWhile isWsChar) from rfl]
          rw [List.chain'_cons']
          refine ⟨?_, hflat.2⟩
          intro y hy
          cases hd : rest.dropWhile isWsChar with
          | nil => rw [hd, scanRepl_nil] at hy; simp at hy
          | cons d0 d1 =>
            have hd0 : isWsChar d0 = false := head_dropWhile_false hd
            cases n with
            | zero =>
              rw [hd] at hdlen
              simp at hdlen
            | succ m =>
              have : wsM (d0 :: d1) = none := by simp [wsM, hd0]
              rw [hd] at hy
              simp only [scanRepl, this] at hy
              simp at hy
              rw [← hy]
              intro hcontra
              rw [hd0] at hcontra
              exact Bool.false_ne_true hcontra.2
      · have hm : wsM (c :: rest) = none := by
          simp [wsM, Bool.not_eq_true _ ▸ hws]
        simp only [scanRepl, hm]
        have hrlen : rest.length ≤ n := by simp at hs; omega
        have hflat := ih rest hrlen
        constructor
        · intro x hx hxws
          rcases List.mem_cons.mp hx with h1 | h1
          · exact absurd (h1 ▸ hxws) hws
          · exact hflat.1 x h1 hxws
        · rw [List.chain'_cons']
          exact ⟨fun y _ hcontra => hws hcontra.1, hflat.2⟩

theorem wsPass_id_of_flat :
    ∀ (fuel : Nat) (l : List Char), Flat l → scanRepl wsM fuel l = l := by
  intro fuel
  induction fuel with
  | zero => intro l _; rfl
  | succ n ih =>
    intro l hl
    cases l with
    | nil => rfl
    | cons c rest =>
      by_cases hws : isWsChar c = true
      · have hc : c = ' ' := hl.1 c (List.mem_cons_self c rest) hws
        have hrest : rest.dropWhile isWsChar = rest := by
          cases rest with
          | nil => rfl
          | cons r0 r1 =>
            have hr0 : ¬(isWsChar c = true ∧ isWsChar r0 = true) := by
              have := (List.chain'_cons'.mp hl.2).1 r0 (by simp)
              exact this
            have : isWsChar r0 = false := by
              cases hr : isWsChar r0 with
              | false => rfl
              | true => exact absurd ⟨hws, hr⟩ hr0
            rw [List.dropWhile_cons, if_neg (by simp [this])]
        have hm : wsM (c :: rest) = some ([' '], rest) := by
          simp [wsM, hws, hrest]
        simp only [scanRepl, hm]
        rw [ih rest hl.tail, ← hc]
        rfl
      · have hm : wsM (c :: rest) = none := by
          simp [wsM, Bool.not_eq_true _ ▸ hws]
        simp only [scanRepl, hm]
        rw [ih rest hl.tail]

theorem trimEnd_pref (l : List Char) : trimEnd l <+: l := by
  rw [← List.reverse_suffix]
  unfold trimEnd
  rw [List.reverse_reverse]
  exact List.dropWhile_suffix _

theorem trimEnd_subset {l : List Char} : trimEnd l ⊆ l :=
  (trimEnd_pref l).subset

theorem jsTrim_subset {l : List Char} : jsTrim l ⊆ l := by
  intro c hc
  exact (List.dropWhile_suffix _).subset (trimEnd_subset hc)

theorem Flat.trim {l : List Char} (h : Flat l) : Flat (jsTrim l) :=
  (h.sfx (List.dropWhile_suffix _)).pfx (trimEnd_pref _)

theorem trimEnd_idem (l : List Char) : trimEnd (trimEnd l) = trimEnd l := by
  unfold trimEnd
  rw [List.reverse_reverse, List.dropWhile_idempotent]

theorem dropWhile_trimEnd (l : List Char) :
    (trimEnd (l.dropWhile isWsChar)).dropWhile isWsChar
      = trimEnd (l.dropWhile isWsChar) := by
  cases hz : trimEnd (l.dropWhile isWsChar) with
  | nil => rfl
  | cons z0 z1 =>
    have hpre : (z0 :: z1) <+: l.dropWhile isWsChar := hz ▸ trimEnd_pref _
    obtain ⟨t, ht⟩ := hpre
    have hz0 : isWsChar z0 = false := head_dropWhile_false ht.symm
    rw [List.dropWhile_cons, if_neg (by simp [hz0])]

theorem jsTrim_idem (l : List Char) : jsTrim (jsTrim l) = jsTrim l := by
  unfold jsTrim
  rw [dropWhile_trimEnd, trimEnd_idem]

theorem angle_trim {l : List Char} (h : AngleSplit l) :
    AngleSplit (jsTrim l) :=
  AngleSplit.pre (trimEnd_pref _)
    (AngleSplit.suffix (List.dropWhile_suffix _) h)

/-!  ### The normalizer on tag-free, entity-free input -/

theorem pass_id {m : List Char → Option (List Char × List Char)}
    {trig : Char → Prop}
    (hm : ∀ c rest, m (c :: rest) ≠ none → trig c)
    {s : List Char} (hs : ∀ c ∈ s, ¬ trig c) : pass m s = s :=
  scanRepl_id hm _ s hs

theorem litM_trig_head {q repl : List Char} {c : Char} {rest : List Char}
    (hp : q.head? = some '&')
    (h : litM q repl (c :: rest) ≠ none) : c = '&' := by
  cases q with
  | nil => simp at hp
  | cons p0 pt =>
    have hp0 : p0 = '&' := by simpa using hp
    exact hp0 ▸ litM_trig h

/-- On input with no `<` and no `&`, the normalizer reduces to whitespace
collapse plus trim: the tag/script/comment passes and the entity decodes
are all identity. -/
theorem extractText_fix {s : List Char} (h1 : '<' ∉ s) (h2 : '&' ∉ s) :
    extractTextL s = jsTrim (pass wsM s) := by
  have hlt : ∀ c ∈ s, ¬(c = '<') := fun c hc he => h1 (he ▸ hc)
  have hamp : ∀ c ∈ s, ¬(c = '&') := fun c hc he => h2 (he ▸ hc)
  have hnl : ∀ c ∈ pass wsM s, ¬(c = '\n') := by
    intro c hc he
    subst he
    have := (flat_wsPass s.length s (Nat.le_refl _)).1 '\n' hc (by decide)
    exact absurd this (by decide)
  simp only [extractTextL]
  rw [pass_id (fun c rest h => scriptM_trig h) hlt,
      pass_id (fun c rest h => scriptM_trig h) hlt,
      pass_id (fun c rest h => commentM_trig h) hlt,
      pass_id (fun c rest h => tagM_trig h) hlt,
      pass_id (fun c rest h =>
        litM_trig_head (q := "&nbsp;".data) rfl h) hamp,
      pass_id (fun c rest h =>
        litM_trig_head (q := "&amp;".data) rfl h) hamp,
      pass_id (fun c rest h =>
        litM_trig_head (q := "&lt;".data) rfl h) hamp,
      pass_id (fun c rest h =>
        litM_trig_head (q := "&gt;".data) rfl h) hamp,
      pass_id (fun c rest h =>
        litM_trig_head (q := "&quot;".data) rfl h) hamp,
      pass_id (fun c rest h =>
        litM_trig_head (q := "&#39;".data) rfl h) hamp,
      pass_id (fun c rest h =>
        litM_trig_head (q := "&apos;".data) rfl h) hamp,
      pass_id (fun c rest h => hexEntM_trig h) hamp,
      pass_id (fun c rest h => decEntM_trig h) hamp,
      pass_id (fun c rest h => nlM_trig h) hnl]

theorem trimWs_mem {s : List Char} {c : Char}
    (hc : c ∈ jsTrim (pass wsM s)) : c ∈ s ∨ c = ' ' :=
  scanRepl_mem (A := fun c => c = ' ')
    (fun l r after hma => by
      obtain ⟨hr, hsuf⟩ := wsM_spec hma
      exact ⟨by intro x hx; rw [hr] at hx; simpa using hx, hsuf⟩)
    s.length s c (jsTrim_subset hc)

theorem pass_mem_script {op cl x : List Char} {c : Char}
    (hc : c ∈ pass (scriptM op cl) x) : c ∈ x ∨ c = ' ' :=
  scanRepl_mem (A := fun c => c = ' ')
    (fun l r after hma => by
      obtain ⟨h1, h2⟩ := scriptM_spec hma
      exact ⟨by intro y hy; rw [h1] at hy; simp at hy, h2⟩)
    x.length x c hc

theorem pass_mem_comment {x : List Char} {c : Char}
    (hc : c ∈ pass commentM x) : c ∈ x ∨ c = ' ' :=
  scanRepl_mem (A := fun c => c = ' ')
    (fun l r after hma => by
      obtain ⟨h1, h2⟩ := commentM_spec hma
      exact ⟨by intro y hy; rw [h1] at hy; simp at hy, h2⟩)
    x.length x c hc

theorem pass_mem_tag {x : List Char} {c : Char}
    (hc : c ∈ pass tagM x) : c ∈ x ∨ c = ' ' :=
  scanRepl_mem (A := fun c => c = ' ')
    (fun l r after hma => by
      obtain ⟨h1, h2, _⟩ := tagM_spec hma
      exact ⟨by intro y hy; rw [h1] at hy; simpa using hy, h2⟩)
    x.length x c hc

/-- On input with no `&`, the normalizer's output is angle-split: whatever
`<` survives is never followed by a `>`, so no `<…>` pattern occurs. -/
theorem extractText_angle {s : List Char} (h2 : '&' ∉ s) :
    AngleSplit (extractTextL s) := by
  have na1 : '&' ∉ pass (scriptM "script".data "</script>".data) s :=
    fun hm => (pass_mem_script hm).elim (fun h => h2 h) (by decide)
  have na2 : '&' ∉ pass (scriptM "style".data "</style>".data)
      (pass (scriptM "script".data "</script>".data) s) :=
    fun hm => (pass_mem_script hm).elim (fun h => na1 h) (by decide)
  have na3 : '&' ∉ pass commentM (pass (scriptM "style".data "</style>".data)
      (pass (scriptM "script".data "</script>".data) s)) :=
    fun hm => (pass_mem_comment hm).elim (fun h => na2 h) (by decide)
  have na4 : '&' ∉ pass tagM (pass commentM
      (pass (scriptM "style".data "</style>".data)
        (pass (scriptM "script".data "</script>".data) s))) :=
    fun hm => (pass_mem_tag hm).elim (fun h => na3 h) (by decide)
  have hamp4 : ∀ c ∈ pass tagM (pass commentM
      (pass (scriptM "style".data "</style>".data)
        (pass (scriptM "script".data "</script>".data) s))),
      ¬(c = '&') := fun c hc he => na4 (he ▸ hc)
  have angle4 : AngleSplit (pass tagM (pass commentM
      (pass (scriptM "style".data "</style>".data)
        (pass (scriptM "script".data "</script>".data) s)))) :=
    tagStrip_angle _ _ (Nat.le_refl _)
  simp only [extractTextL]
  rw [pass_id (fun c rest h =>
        litM_trig_head (q := "&nbsp;".data) rfl h) hamp4,
      pass_id (fun c rest h =>
        litM_trig_head (q := "&amp;".data) rfl h) hamp4,
      pass_id (fun c rest h =>
        litM_trig_head (q := "&lt;".data) rfl h) hamp4,
      pass_id (fun c rest h =>
        litM_trig_head (q := "&gt;".data) rfl h) hamp4,
      pass_id (fun c rest h =>
        litM_trig_head (q := "&quot;".data) rfl h) hamp4,
      pass_id (fun c rest h =>
        litM_trig_head (q := "&#39;".data) rfl h) hamp4,
      pass_id (fun c rest h =>
        litM_trig_head (q := "&apos;".data) rfl h) hamp4,
      pass_id (fun c rest h => hexEntM_trig h) hamp4,
      pass_id (fun c rest h => decEntM_trig h) hamp4]
  rw [pass_id (fun c rest h => nlM_trig h) (by
    intro c hc he
    subst he
    have := (flat_wsPass _ _ (Nat.le_refl _)).1 '\n' hc (by decide)
    exact absurd this (by decide))]
  exact angle_trim (angle_scanRepl
    (fun l r after hma => by
      obtain ⟨h1, h2⟩ := wsM_spec hma
      exact ⟨by intro y hy; rw [h1] at hy; simp at hy; exact Or.inl hy, h2⟩)
    _ _ angle4)

/-- The normalizer is idempotent on input with no `<` and no `&`. -/
theorem extractText_idem_of_clean (s : String)
    (h1 : '<' ∉ s.data) (h2 : '&' ∉ s.data) :
    extractTextFromHtml (extractTextFromHtml s) = extractTextFromHtml s := by
  have base : extractTextL s.data = jsTrim (pass wsM s.data) :=
    extractText_fix h1 h2
  have ht1 : '<' ∉ jsTrim (pass wsM s.data) := fun hm => by
    rcases trimWs_mem hm with h | h
    · exact h1 h
    · exact absurd h (by decide)
  have ht2 : '&' ∉ jsTrim (pass wsM s.data) := fun hm => by
    rcases trimWs_mem hm with h | h
    · exact h2 h
    · exact absurd h (by decide)
  have hflatt : Flat (jsTrim (pass wsM s.data)) :=
    (flat_wsPass _ _ (Nat.le_refl _)).trim
  have core : extractTextL (extractTextL s.data) = extractTextL s.data := by
    calc extractTextL (extractTextL s.data)
        = extractTextL (jsTrim (pass wsM s.data)) := by rw [base]
      _ = jsTrim (pass wsM (jsTrim (pass wsM s.data))) :=
          extractText_fix ht1 ht2
      _ = jsTrim (jsTrim (pass wsM s.data)) := by
          rw [show pass wsM (jsTrim (pass wsM s.data))
              = jsTrim (pass wsM s.data) from wsPass_id_of_flat _ _ hflatt]
      _ = jsTrim (pass wsM s.data) := jsTrim_idem _
      _ = extractTextL s.data := base.symm
  have hwrap : ∀ l : List Char, extractTextFromHtml ⟨l⟩ = ⟨extractTextL l⟩ :=
    fun _ => rfl
  have hs : extractTextFromHtml s = ⟨extractTextL s.data⟩ := rfl
  rw [hs, hwrap, core]

end Scrape

namespace Scrape

/-!  ### String-level corollaries of the angle-split property -/

theorem extractSpecialized_angle {text : String} (url : String)
    (h : AngleSplit text.data) :
    extractSpecializedContent text url = none := by
  rw [extractSpecializedContent]
  cases hpu : parseHostname url with
  | none => simp
  | some hn =>
    simp only []
    cases hfc : findConfigH hn with
    | none => simp
    | some p =>
      obtain ⟨d, cfg⟩ := p
      simp [runSelectors_angle cfg.selectors h]

theorem extractTargeted_angle {text : String} (sels : List String)
    (h : AngleSplit text.data) :
    extractTargetedContent text sels = none := by
  rw [extractTargetedContent]
  simp [runSelectors_angle sels h]

/-!  ### First-match characterization of `List.find?` -/

theorem find?_first {α : Type} (p : α → Bool) :
    ∀ (l : List α) (a : α), l.find? p = some a ↔
      ∃ l₁ l₂, l = l₁ ++ a :: l₂ ∧ p a = true ∧ ∀ b ∈ l₁, p b = false := by
  intro l
  induction l with
  | nil => intro a; simp
  | cons x xs ih =>
    intro a
    constructor
    · intro h
      cases hx : p x with
      | true =>
        rw [List.find?_cons_of_pos _ hx] at h
        injection h with h
        exact ⟨[], xs, by simp [h], by rw [← h]; exact hx, by simp⟩
      | false =>
        rw [List.find?_cons_of_neg _ (by simp [hx])] at h
        obtain ⟨l₁, l₂, heq, hpa, hl₁⟩ := (ih a).mp h
        exact ⟨x :: l₁, l₂, by rw [heq, List.cons_append], hpa, by
          intro b hb
          rcases List.mem_cons.mp hb with h' | h'
          · rw [h']; exact hx
          · exact hl₁ b h'⟩
    · rintro ⟨l₁, l₂, heq, hpa, hl₁⟩
      cases l₁ with
      | nil =>
        simp at heq
        obtain ⟨h1, h2⟩ := heq
        rw [List.find?_cons_of_pos _ (h1 ▸ hpa)]
        rw [h1]
      | cons y ys =>
        rw [List.cons_append] at heq
        have hy1 : x = y := Option.some.inj (congrArg List.head? heq)
        have hy2 : xs = ys ++ a :: l₂ := congrArg List.tail heq
        have hpx : p x = false := hy1 ▸ hl₁ y (List.mem_cons_self y ys)
        rw [List.find?_cons_of_neg _ (by simp [hpx])]
        exact (ih a).mpr ⟨ys, l₂, hy2, hpa, fun b hb =>
          hl₁ b (List.mem_cons_of_mem y hb)⟩

/-!  ### Handler-level facts -/

theorem parseHostname_empty : parseHostname "" = none := rfl

theorem basicScrape_timeout : basicScrape FetchOutcome.timeout = none := rfl

theorem targetedScrape_timeout (url host : String) :
    targetedScrape FetchOutcome.timeout url host = none := rfl

theorem dispatch_timeout_content (url host strat : String) :
    (scrapeDispatch FetchOutcome.timeout url host strat).1 = none := by
  rw [scrapeDispatch]
  by_cases h1 : strat = "basic"
  · simp [h1, basicScrape]
  · rw [if_neg h1]
    by_cases h2 : strat = "targeted"
    · simp [h2, targetedScrape, basicScrape]
    · rw [if_neg h2]
      simp [targetedScrape, basicScrape, jsFalsyShort]

theorem handle_timeout_400 (url strat host : String)
    (hp : parseHostname url = some host) :
    (handleRequest url strat FetchOutcome.timeout).status = 400 ∧
    (handleRequest url strat FetchOutcome.timeout).error =
      some "Could not extract meaningful content from webpage" := by
  have hurl : url ≠ "" := by
    intro he
    rw [he, parseHostname_empty] at hp
    exact Option.noConfusion hp
  rw [handleRequest, if_neg hurl, hp]
  dsimp only
  rw [dispatch_timeout_content url host strat]
  simp [jsFalsyShort, errResponse]

theorem auto_fallback (fo : FetchOutcome) (url host : String)
    (hp : parseHostname url = some host)
    (hshort : jsFalsyShort (targetedScrape fo url host) 200 = true) :
    scrapeDispatch fo url host "auto" = (basicScrape fo, "basic-fallback") ∧
    (handleRequest url "auto" fo).method = some "basic-fallback" := by
  have hd : scrapeDispatch fo url host "auto"
      = (basicScrape fo, "basic-fallback") := by
    rw [scrapeDispatch, if_neg (by decide : ¬("auto" = "basic")),
      if_neg (by decide : ¬("auto" = "targeted")), if_pos hshort]
  refine ⟨hd, ?_⟩
  have hurl : url ≠ "" := by
    intro he
    rw [he, parseHostname_empty] at hp
    exact Option.noConfusion hp
  rw [handleRequest, if_neg hurl, hp]
  dsimp only
  rw [hd]
  by_cases hb : jsFalsyShort (basicScrape fo) 100 = true
  · rw [if_pos (by simpa using hb)]
    rfl
  · rw [if_neg (by simpa using hb)]
    rfl

theorem status200_content_bounds (url strat : String) (fo : FetchOutcome)
    (h : (handleRequest url strat fo).status = 200) :
    ∃ c : String, (handleRequest url strat fo).content = some c ∧
      c.length ≤ 20000 ∧
      (handleRequest url strat fo).contentLength = some c.length := by
  rw [handleRequest] at h ⊢
  by_cases hu : url = ""
  · rw [if_pos hu] at h
    simp [errResponse] at h
  · rw [if_neg hu] at h ⊢
    cases hp : parseHostname url with
    | none =>
      rw [hp] at h
      simp [errResponse] at h
    | some host =>
      rw [hp] at h
      dsimp only at h ⊢
      by_cases hshort :
          jsFalsyShort (scrapeDispatch fo url host strat).1 100 = true
      · rw [if_pos hshort] at h
        simp [errResponse] at h
      · rw [if_neg hshort]
        refine ⟨_, rfl, ?_, rfl⟩
        show (List.take 20000 _).length ≤ 20000
        rw [List.length_take]
        exact Nat.min_le_left _ _

end Scrape

namespace Scrape

theorem data_mk (l : List Char) : (⟨l⟩ : String).data = l := rfl

/-!  ## The claims -/

/-- C1 (amended): every 200 response carries `content` of at most 20000
characters with `contentLength` equal to its length, and the 100-character
minimum is enforced on the extracted content *before* enhancement — the
returned content itself can be shorter than 100 characters. -/
theorem claim1_response_bounds (url strat : String) (fo : FetchOutcome)
    (h : (handleRequest url strat fo).status = 200) :
    ∃ (host raw c : String),
      parseHostname url = some host ∧
      (scrapeDispatch fo url host strat).1 = some raw ∧
      100 ≤ raw.length ∧
      (handleRequest url strat fo).content = some c ∧
      c = ⟨(enhanceJobContent raw host).data.take 20000⟩ ∧
      c.length ≤ 20000 ∧
      (handleRequest url strat fo).contentLength = some c.length := by
  rw [handleRequest] at h ⊢
  by_cases hu : url = ""
  · rw [if_pos hu] at h
    simp [errResponse] at h
  · rw [if_neg hu] at h ⊢
    cases hp : parseHostname url with
    | none =>
      rw [hp] at h
      simp [errResponse] at h
    | some host =>
      rw [hp] at h
      dsimp only at h ⊢
      by_cases hshort :
          jsFalsyShort (scrapeDispatch fo url host strat).1 100 = true
      · rw [if_pos hshort] at h
        simp [errResponse] at h
      · rw [if_neg hshort]
        cases hcm : (scrapeDispatch fo url host strat).1 with
        | none => rw [hcm] at hshort; exact absurd rfl hshort
        | some raw =>
          rw [hcm] at hshort
          have hlen : ¬(raw.length < 100) := by
            intro hl
            exact hshort (by simpa [jsFalsyShort] using hl)
          refine ⟨host, raw, ⟨(enhanceJobContent raw host).data.take 20000⟩,
            rfl, hcm, by omega, rfl, rfl, ?_, rfl⟩
          show (List.take 20000 (enhanceJobContent raw host).data).length ≤ 20000
          rw [List.length_take]
          exact Nat.min_le_left _ _

/-- C1 witness: a basic-strategy request that succeeds with 200. -/
theorem claim1_response_bounds_witness :
    (handleRequest "https://x.com/a" "basic"
      (FetchOutcome.success plainLongHtml)).status = 200 ∧
    ∃ (host raw c : String),
      parseHostname "https://x.com/a" = some host ∧
      (scrapeDispatch (FetchOutcome.success plainLongHtml)
        "https://x.com/a" host "basic").1 = some raw ∧
      100 ≤ raw.length ∧
      (handleRequest "https://x.com/a" "basic"
        (FetchOutcome.success plainLongHtml)).content = some c ∧
      c = ⟨(enhanceJobContent raw host).data.take 20000⟩ ∧
      c.length ≤ 20000 ∧
      (handleRequest "https://x.com/a" "basic"
        (FetchOutcome.success plainLongHtml)).contentLength
          = some c.length :=
  ⟨by decide, claim1_response_bounds _ _ _ (by decide)⟩

/-- C1 counterexample: a page of 109 characters made of the `Apply now`
noise phrase is accepted (pre-enhancement length ≥ 100), but the enhancer
removes the noise and the 200 response carries only 25 characters —
`len(content) ≥ 100` fails on the returned content. -/
theorem claim1_counterexample :
    (handleRequest "https://x.com/a" "basic"
      (FetchOutcome.success noiseOnlyHtml)).status = 200 ∧
    (handleRequest "https://x.com/a" "basic"
      (FetchOutcome.success noiseOnlyHtml)).content
        = some "Source: x.com\n\n          " ∧
    ("Source: x.com\n\n          " : String).length < 100 := by
  refine ⟨by decide, by decide, by decide⟩

/-- C2: a timed-out fetch does *not* produce the 408 timeout response the
spec requires — `basicScrape`'s catch-all swallows the abort and returns
`null`, so for every strategy the handler answers 400 with the generic
"could not extract" error; the handler's 408 `AbortError` branch is
unreachable. -/
theorem claim2_timeout_yields_400 (url strat host : String)
    (hp : parseHostname url = some host) :
    (handleRequest url strat FetchOutcome.timeout).status = 400 ∧
    (handleRequest url strat FetchOutcome.timeout).status ≠ 408 ∧
    (handleRequest url strat FetchOutcome.timeout).error =
      some "Could not extract meaningful content from webpage" := by
  obtain ⟨h1, h2⟩ := handle_timeout_400 url strat host hp
  exact ⟨h1, by rw [h1]; decide, h2⟩

/-- C2 witness: a concrete valid URL whose fetch times out. -/
theorem claim2_timeout_witness :
    parseHostname "https://example.org/job" = some "example.org" ∧
    (handleRequest "https://example.org/job" "auto"
      FetchOutcome.timeout).status = 400 ∧
    (handleRequest "https://example.org/job" "auto"
      FetchOutcome.timeout).status ≠ 408 :=
  ⟨by decide,
    (claim2_timeout_yields_400 "https://example.org/job" "auto"
      "example.org" (by decide)).1,
    (claim2_timeout_yields_400 "https://example.org/job" "auto"
      "example.org" (by decide)).2.1⟩

/-- C3: on the scenario-C fixture (registered site `careers.google.com`,
a `.job-description` block surrounded by nav/footer, strategy `targeted`)
the handler returns the *whole-page* text — nav and footer included — and
the method tag is the fixed string `specialized-targeted`, not
`specialized-careers.google.com`: the specialized selector path never
fires because the extractors receive tag-stripped text instead of HTML. -/
theorem claim3_scenarioC_divergence :
    (handleRequest "https://careers.google.com/jobs/123" "targeted"
        (FetchOutcome.success scenarioCHtml)).status = 200 ∧
    (handleRequest "https://careers.google.com/jobs/123" "targeted"
        (FetchOutcome.success scenarioCHtml)).method
      = some "specialized-targeted" ∧
    (handleRequest "https://careers.google.com/jobs/123" "targeted"
        (FetchOutcome.success scenarioCHtml)).method
      ≠ some "specialized-careers.google.com" ∧
    (handleRequest "https://careers.google.com/jobs/123" "targeted"
        (FetchOutcome.success scenarioCHtml)).content
      = some scenarioCContent ∧
    isSubstr "SiteNavigationMenu".data scenarioCContent.data = true ∧
    isSubstr "FooterLegalBlock".data scenarioCContent.data = true := by
  have h : handleRequest "https://careers.google.com/jobs/123" "targeted"
      (FetchOutcome.success scenarioCHtml) =
      { status := 200, success := true, content := some scenarioCContent,
        contentLength := some 281,
        method := some "specialized-targeted",
        hostname := some "careers.google.com", error := none } := by decide
  rw [h]
  exact ⟨rfl, rfl, by decide, rfl, by decide, by decide⟩

/-- C4 (amended): the normalizer is idempotent on text that contains
neither `<` nor `&`; on general input a second run can differ, because
entity decoding re-introduces markup that the second run strips. -/
theorem claim4_normalizer_idem_on_clean (s : String)
    (h1 : '<' ∉ s.data) (h2 : '&' ∉ s.data) :
    extractTextFromHtml (extractTextFromHtml s) = extractTextFromHtml s :=
  extractText_idem_of_clean s h1 h2

/-- C4 witness: idempotence on a concrete entity-free text. -/
theorem claim4_idem_witness :
    ('<' ∉ ("  hello   world  " : String).data) ∧
    ('&' ∉ ("  hello   world  " : String).data) ∧
    extractTextFromHtml (extractTextFromHtml "  hello   world  ")
      = extractTextFromHtml "  hello   world  " :=
  ⟨by decide, by decide,
    claim4_normalizer_idem_on_clean "  hello   world  " (by decide) (by decide)⟩

/-- C4 counterexample: `normalize` is not idempotent — decoding
`&lt;b&gt;hi&lt;/b&gt;` yields `<b>hi</b>`, and a second run strips the
reconstituted tags down to `hi`. -/
theorem claim4_counterexample :
    extractTextFromHtml (extractTextFromHtml "&lt;b&gt;hi&lt;/b&gt;") ≠
      extractTextFromHtml "&lt;b&gt;hi&lt;/b&gt;" := by decide

/-- C5 (amended): the enhancer is a pure function of its two arguments,
but it is *not* idempotent: it prepends the `Source:` banner
unconditionally, so a second application stacks a second banner. -/
theorem claim5_enhancer_pure_not_idem :
    (∀ (t₁ t₂ c₁ c₂ : String), t₁ = t₂ → c₁ = c₂ →
      enhanceJobContent t₁ c₁ = enhanceJobContent t₂ c₂) ∧
    (∃ (t c : String),
      enhanceJobContent (enhanceJobContent t c) c ≠ enhanceJobContent t c) :=
  ⟨fun _ _ _ _ h1 h2 => by rw [h1, h2], ⟨"y", "g", by decide⟩⟩

/-- C5 witness for the purity component. -/
theorem claim5_purity_witness :
    enhanceJobContent "a" "b" = enhanceJobContent "a" "b" :=
  claim5_enhancer_pure_not_idem.1 "a" "a" "b" "b" rfl rfl

/-- C5 counterexample: `enhance(enhance("x","h"),"h")` carries two
`Source: h` banners, so it differs from `enhance("x","h")`. -/
theorem claim5_counterexample :
    enhanceJobContent (enhanceJobContent "x" "h") "h"
      ≠ enhanceJobContent "x" "h" := by decide

/-- C6 (amended): the registry lookup returns exactly the first entry, in
registration order, whose fragment `f` satisfies the code's rule — `h`
contains `f`, or `f` contains `h` with the *first* occurrence of `www.`
removed (not a leading-`www.` strip, as the spec words it). -/
theorem claim6_lookup_first_match (h : String) (e : String × SiteConfig) :
    findConfigH h = some e ↔
      ∃ l₁ l₂, SPECIALIZED_CONFIGS = l₁ ++ e :: l₂ ∧
        codeMatch h.data e.1.data = true ∧
        ∀ e' ∈ l₁, codeMatch h.data e'.1.data = false := by
  have := find?_first (fun p => codeMatch h.data p.1.data)
    SPECIALIZED_CONFIGS e
  simpa [findConfigH] using this

/-- C6 witness: `careers.google.com` resolves to the Google entry, which
sits after the (non-matching) Apple entry. -/
theorem claim6_lookup_witness :
    ∃ l₁ l₂, SPECIALIZED_CONFIGS
        = l₁ ++ ("careers.google.com", googleCfg) :: l₂ ∧
      codeMatch "careers.google.com".data "careers.google.com".data = true ∧
      ∀ e' ∈ l₁, codeMatch "careers.google.com".data e'.1.data = false :=
  (claim6_lookup_first_match "careers.google.com"
    ("careers.google.com", googleCfg)).mp (by decide)

/-- C6 counterexample: for `h = jobs.www.apple.com` the lookup returns the
`jobs.apple.com` entry although the claim's rule (substring either way,
with only a *leading* `www.` stripped) matches no fragment — the code
removes the first `www.` anywhere in the hostname. -/
theorem claim6_counterexample :
    (findConfigH "jobs.www.apple.com").map Prod.fst
      = some "jobs.apple.com" ∧
    specMatchModel "jobs.www.apple.com" "jobs.apple.com" = false := by
  exact ⟨by decide, by decide⟩

/-- C7: under `auto`, when the targeted result is missing or shorter than
200 characters, the dispatch re-runs the basic path, the content is the
basic path's output, and the reported method is `basic-fallback`. -/
theorem claim7_auto_fallback (fo : FetchOutcome) (url host : String)
    (hp : parseHostname url = some host)
    (hshort : jsFalsyShort (targetedScrape fo url host) 200 = true) :
    scrapeDispatch fo url host "auto" = (basicScrape fo, "basic-fallback") ∧
    (handleRequest url "auto" fo).method = some "basic-fallback" :=
  auto_fallback fo url host hp hshort

/-- C7 witness: a fetch outcome on which the targeted path yields nothing. -/
theorem claim7_auto_fallback_witness :
    parseHostname "https://example.com/x" = some "example.com" ∧
    jsFalsyShort (targetedScrape FetchOutcome.timeout
      "https://example.com/x" "example.com") 200 = true ∧
    scrapeDispatch FetchOutcome.timeout "https://example.com/x"
        "example.com" "auto"
      = (basicScrape FetchOutcome.timeout, "basic-fallback") ∧
    (handleRequest "https://example.com/x" "auto"
      FetchOutcome.timeout).method = some "basic-fallback" :=
  ⟨by decide, by decide,
    (claim7_auto_fallback FetchOutcome.timeout "https://example.com/x"
      "example.com" (by decide) (by decide)).1,
    (claim7_auto_fallback FetchOutcome.timeout "https://example.com/x"
      "example.com" (by decide) (by decide)).2⟩

/-- C8 (amended): `cleanJobContent` prepends its `Company:` banner only
when the company name is absent (case-insensitively) from the normalized
text, but `enhanceJobContent` prepends its `Source:` banner
unconditionally, whether or not the hostname already occurs in the text. -/
theorem claim8_banner_conditions :
    (∀ (content company : String),
      isSubstr (lowerL company.data) (lowerL (cleanPre content.data)) = true →
      cleanJobContent content company = ⟨cleanPost (cleanPre content.data)⟩) ∧
    (∀ (t h : String),
      enhanceJobContent t h
        = ⟨enhancePost ("Source: ".data ++ h.data
            ++ ('\n' :: '\n' :: t.data))⟩) := by
  constructor
  · intro content company hpresent
    rw [cleanJobContent]
    simp [hpresent]
  · intro t h
    rfl

/-- C8 witness: with the company name already present, `cleanJobContent`
adds no banner. -/
theorem claim8_banner_witness :
    isSubstr (lowerL ("Google" : String).data)
      (lowerL (cleanPre ("Google builds products" : String).data)) = true ∧
    cleanJobContent "Google builds products" "Google"
      = ⟨cleanPost (cleanPre ("Google builds products" : String).data)⟩ :=
  ⟨by decide, claim8_banner_conditions.1 "Google builds products" "Google"
    (by decide)⟩

/-- C8 counterexample: the hostname is present case-insensitively in the
input, yet the enhancer still prepends a `Source:` banner. -/
theorem claim8_counterexample :
    containsCI "careers.acme.io".data
      ("Visit careers.acme.io for roles" : String).data = true ∧
    enhanceJobContent "Visit careers.acme.io for roles" "careers.acme.io"
      = "Source: careers.acme.io\n\nVisit careers.acme.io for roles" := by
  exact ⟨by decide, by decide⟩

/-- C9: the one fallible primitive inside the specialized extractor —
`new URL` — is caught locally: a URL that fails to parse surfaces as a
`none` result rather than an exception.  (All other operations of the
normalizer and the extractors are total string transforms, embedded here
as total functions.) -/
theorem claim9_parse_failure_caught (html url : String)
    (hp : parseHostname url = none) :
    extractSpecializedContent html url = none := by
  rw [extractSpecializedContent, hp]

/-- C9 witness: an unparseable URL. -/
theorem claim9_parse_failure_witness :
    parseHostname "not a url" = none ∧
    extractSpecializedContent "some page text" "not a url" = none :=
  ⟨by decide,
    claim9_parse_failure_caught "some page text" "not a url" (by decide)⟩

/-- C10 (amended): `targetedScrape` hands the extractors `basicScrape`'s
output — the normalizer's tag-stripped text, not the raw HTML — and, for
every page containing no `&`, that text has no `<…>` form left (every
surviving `<` has no later `>`), so the selector regexes cannot match and
both extractors return `none`.  (Entity-encoded markup, decoded by the
normalizer, is the one way tags can reappear; see the counterexample.) -/
theorem claim10_normalized_input (html url : String) (sels : List String)
    (h : '&' ∉ html.data) :
    basicScrape (FetchOutcome.success html)
      = some (extractTextFromHtml html) ∧
    AngleSplit (extractTextFromHtml html).data ∧
    extractSpecializedContent (extractTextFromHtml html) url = none ∧
    extractTargetedContent (extractTextFromHtml html) sels = none := by
  have hs : extractTextFromHtml html = ⟨extractTextL html.data⟩ := rfl
  have hangle : AngleSplit (extractTextFromHtml html).data := by
    rw [hs, data_mk]
    exact extractText_angle h
  exact ⟨rfl, hangle, extractSpecialized_angle url hangle,
    extractTargeted_angle sels hangle⟩

/-- C10 witness: on a plain page the specialized extractor finds nothing. -/
theorem claim10_normalized_input_witness :
    ('&' ∉ ("Just plain page text" : String).data) ∧
    extractSpecializedContent (extractTextFromHtml "Just plain page text")
      "https://www.linkedin.com/jobs/view/1" = none :=
  ⟨by decide, (claim10_normalized_input "Just plain page text"
    "https://www.linkedin.com/jobs/view/1" [] (by decide)).2.2.1⟩

/-- C10 counterexample: a page whose markup is entity-encoded defeats the
"no HTML tags" part of the claim — after decoding, the extractor input
contains a literal `<p class=job-details>` tag and the specialized
selector regex *does* match. -/
theorem claim10_counterexample :
    isSubstr "<p class=job-details>".data
      (extractTextFromHtml entityTagHtml).data = true ∧
    (extractSpecializedContent (extractTextFromHtml entityTagHtml)
      "https://www.linkedin.com/jobs/view/1").isSome = true := by
  exact ⟨by decide, by decide⟩


end Scrape
